import Mathlib

/-!
Verification of the Jetson-PRS license-plate-recognition core.

The definitions below are a shallow embedding of the C++ sources:
`src/detector.cpp` (PlateValidator, PlateDetector::applyNMS),
`src/lpr_system.cpp` (LPRSystem::checkCooldown, LPRSystem::captureThread) and
`src/ocr_processor.cpp` (OCRProcessor::recognize,
OCRProcessor::recognizeMultipleAttempts).  C++ `float`/`double` confidence
values and timestamps are modelled as rationals, `std::string` as `String`,
and the various maps/queues as association lists in iteration order.
-/

namespace JetsonPRS

/-! ### Character classes and text cleaning (PlateValidator::cleanText)

Models the C-locale `std::isalnum` / `std::toupper` used by
`PlateValidator::cleanText` on ASCII text. -/

/-- ASCII uppercase letter, the character class `[A-Z]` of the plate regexes. -/
def isUpperLetter (c : Char) : Bool := 65 ≤ c.toNat && c.toNat ≤ 90

/-- ASCII lowercase letter. -/
def isLowerLetter (c : Char) : Bool := 97 ≤ c.toNat && c.toNat ≤ 122

/-- ASCII digit, the character class `[0-9]` of the plate regexes. -/
def isDigitChar (c : Char) : Bool := 48 ≤ c.toNat && c.toNat ≤ 57

/-- C-locale `std::isalnum` on ASCII. -/
def isAlnumChar (c : Char) : Bool := isUpperLetter c || isLowerLetter c || isDigitChar c

/-- C-locale `std::toupper` on ASCII. -/
def asciiUpper (c : Char) : Char :=
  if isLowerLetter c then Char.ofNat (c.toNat - 32) else c

/-- `PlateValidator::cleanText` on character lists: keep alphanumeric
characters, uppercased. -/
def cleanTextL (cs : List Char) : List Char := (cs.filter isAlnumChar).map asciiUpper

/-- `PlateValidator::cleanText`. -/
def cleanText (s : String) : String := ⟨cleanTextL s.data⟩

/-! ### Plate grammars (PATTERN_STANDARD and PATTERN_DIPLOMATIC) -/

/-- Exact match of the standard plate regex `[A-Z]{3}[0-9]{3}`. -/
def matchesStandard : List Char → Bool
  | [a, b, c, d, e, f] =>
    isUpperLetter a && isUpperLetter b && isUpperLetter c &&
    isDigitChar d && isDigitChar e && isDigitChar f
  | _ => false

/-- Exact match of the diplomatic plate regex `CD[0-9]{4}`. -/
def matchesDiplomatic : List Char → Bool
  | [a, b, c, d, e, f] =>
    a == 'C' && b == 'D' &&
    isDigitChar c && isDigitChar d && isDigitChar e && isDigitChar f
  | _ => false

/-- `PlateValidator::isValidColombianFormat`: length must be exactly 6 and the
text must match one of the two plate regexes. -/
def isValidColombianFormat (s : String) : Bool :=
  if s.data.length ≠ 6 then false
  else matchesStandard s.data || matchesDiplomatic s.data

/-- Leftmost match of a fixed-width-6 pattern, modelling `std::regex_search`
for the two plate regexes (both only ever match exactly 6 characters, so a
match is a 6-character window and `regex_search` returns the leftmost one). -/
def firstWindowMatch (p : List Char → Bool) : List Char → Option (List Char)
  | [] => none
  | c :: rest =>
    if p ((c :: rest).take 6) then some ((c :: rest).take 6)
    else firstWindowMatch p rest

/-- `PlateValidator::normalizeColombianPlate` on character lists, translated
branch by branch from `src/detector.cpp`: clean; reject if shorter than 6;
if longer than 6 take the first standard-pattern match, else the first
diplomatic-pattern match, else fall back to the first 6 characters; finally
validate a 6-character candidate against both grammars. -/
def normalizeL (cs : List Char) : List Char :=
  if (cleanTextL cs).length < 6 then []
  else if 6 < (cleanTextL cs).length then
    match firstWindowMatch matchesStandard (cleanTextL cs) with
    | some m => m
    | none =>
      match firstWindowMatch matchesDiplomatic (cleanTextL cs) with
      | some m => m
      | none =>
        if matchesStandard ((cleanTextL cs).take 6)
            || matchesDiplomatic ((cleanTextL cs).take 6)
        then (cleanTextL cs).take 6 else []
  else if matchesStandard (cleanTextL cs) || matchesDiplomatic (cleanTextL cs)
       then cleanTextL cs else []

/-- `PlateValidator::normalizeColombianPlate`. -/
def normalizeColombianPlate (s : String) : String := ⟨normalizeL s.data⟩

/-! ### Detection cooldown (LPRSystem::checkCooldown)

The cooldown map `detection_cooldown_` is modelled as an association list
from plate text to last-seen timestamp (timestamps as rationals).  The
suppress path of the C++ code returns before the update and the pruning
loop; the accept path first writes `plate ↦ now` and then erases every
entry whose age strictly exceeds ten times the cooldown interval. -/

/-- The cooldown map `detection_cooldown_`. -/
abbrev CooldownMap := List (String × ℚ)

/-- `LPRSystem::checkCooldown`, with the call time `now` (taken from the
system clock in the C++ code) passed explicitly.  Returns the accept flag
and the updated map. -/
def checkCooldown (cooldown : ℚ) (m : CooldownMap) (plate : String) (now : ℚ) :
    Bool × CooldownMap :=
  let suppressed :=
    match m.lookup plate with
    | some ts => decide (now - ts < cooldown)
    | none => false
  if suppressed then (false, m)
  else
    let updated := (plate, now) :: m.filter (fun e => !(e.1 == plate))
    (true, updated.filter (fun e => decide (now - e.2 ≤ 10 * cooldown)))

/-! ### OCR results and the OCR cache (OCRProcessor)

`OCRResult` is the struct from `ocr_processor.h`: recognized text plus a
confidence in [0,1] (default-constructed as empty text, confidence 0).
The cache `ocr_cache_` is a `std::unordered_map` keyed by the image
fingerprint; it is modelled as an association list in iteration order.
Iteration order of the C++ `std::unordered_map` is implementation-defined
(library code outside this repository); per the spec it is modelled here as
insertion order, oldest first. -/

/-- The `OCRResult` struct: recognized text and scalar confidence. -/
structure OCRResult where
  text : String
  confidence : ℚ
deriving DecidableEq

/-- Default-constructed `OCRResult()`: empty text, confidence 0. -/
def emptyOCRResult : OCRResult := ⟨"", 0⟩

/-- The OCR result cache `ocr_cache_`, oldest entry first. -/
abbrev OCRCache := List (String × OCRResult)

/-- `max_cache_size_`, set to 100 in the `OCRProcessor` constructor. -/
def maxCacheSize : ℕ := 100

/-- The cache logic of `OCRProcessor::recognize(plate_image, use_cache)`.
The engine work (preprocessing plus Tesseract) is abstracted by `hash` (the
fingerprint `calculateImageHash` computes for the image) and `engine` (the
`OCRResult` the OCR engine would produce for it).  A cache hit returns the
cached result unchanged; on a miss with non-empty text, if the cache holds
at least `max_cache_size_` entries the oldest `max_cache_size_ / 5` entries
are erased before the new entry is inserted. -/
def recognizeWithCache (cache : OCRCache) (hash : String) (engine : OCRResult)
    (useCache : Bool) : OCRResult × OCRCache :=
  if useCache then
    match cache.lookup hash with
    | some r => (r, cache)
    | none =>
      if engine.text = "" then (engine, cache)
      else
        let pruned := if maxCacheSize ≤ cache.length then cache.drop (maxCacheSize / 5)
                      else cache
        (engine, pruned ++ [(hash, engine)])
  else (engine, cache)

/-! ### Multi-attempt OCR (OCRProcessor::recognizeMultipleAttempts)

The OCR engine runs are abstracted by the list `variants` (the result the
engine produces for each binarized variant from `applyMultipleThresholds`,
in order) and `fallback` (the result for the single-attempt preprocessed
image).  The trace additionally records which attempts actually ran, so the
early-exit behaviour of the loop is part of the model's output. -/

/-- The early-exit bar of the multi-attempt loop (`best_confidence > 0.9`). -/
def veryHighConf : ℚ := mkRat 9 10

/-- The fallback bar of the multi-attempt loop (`best_confidence < 0.5`). -/
def moderateConf : ℚ := mkRat 1 2

/-- Result of `recognizeMultipleAttempts` instrumented with the list of
binarized variants whose OCR run actually happened and whether the
single-attempt fallback ran. -/
structure MultiTrace where
  result : OCRResult
  tried : List OCRResult
  fallbackUsed : Bool
deriving DecidableEq

/-- The loop of `recognizeMultipleAttempts`: track the best result so far
(update on strictly larger confidence), stop once the best confidence
exceeds `veryHighConf`.  Returns best result, best confidence and the list
of variants processed. -/
def multiLoop : List OCRResult → OCRResult → ℚ → OCRResult × ℚ × List OCRResult
  | [], best, bestConf => (best, bestConf, [])
  | r :: rest, best, bestConf =>
    let best' := if bestConf < r.confidence then r else best
    let bestConf' := if bestConf < r.confidence then r.confidence else bestConf
    if veryHighConf < bestConf' then (best', bestConf', [r])
    else
      let z := multiLoop rest best' bestConf'
      (z.1, z.2.1, r :: z.2.2)

/-- `OCRProcessor::recognizeMultipleAttempts`: run the loop over the
binarized variants starting from a default `OCRResult` and confidence 0;
if the resulting best confidence is below `moderateConf`, also try the
single-attempt path and keep the higher-confidence result. -/
def recognizeMultipleAttempts (variants : List OCRResult) (fallback : OCRResult) :
    MultiTrace :=
  let z := multiLoop variants emptyOCRResult 0
  if z.2.1 < moderateConf then
    { result := if z.2.1 < fallback.confidence then fallback else z.1
      tried := z.2.2
      fallbackUsed := true }
  else
    { result := z.1, tried := z.2.2, fallbackUsed := false }

/-- Largest confidence in a list of OCR results (0 for the empty list). -/
def bestConfOf (l : List OCRResult) : ℚ := l.foldr (fun r a => max r.confidence a) 0

/-- The specification of `recognizeMultipleAttempts` asserted by the spec:
the attempted variants form a prefix of the variant sequence; the loop runs
past a variant only while the best confidence so far is at most the
very-high bar, and stops early only once it exceeds it; the single-attempt
fallback runs exactly when the loop's best confidence misses the moderate
bar; and the returned result carries the highest confidence among all
attempts actually performed (or is the default result when every attempt
scored 0). -/
def MultiAttemptSpec (variants : List OCRResult) (fallback : OCRResult) : Prop :=
  let T := recognizeMultipleAttempts variants fallback
  let attempts := T.tried ++ (if T.fallbackUsed then [fallback] else [])
  (∃ n, T.tried = variants.take n) ∧
  (T.tried ≠ variants → veryHighConf < bestConfOf T.tried) ∧
  (∀ k, k < T.tried.length → bestConfOf (T.tried.take k) ≤ veryHighConf) ∧
  (T.fallbackUsed = true ↔ bestConfOf T.tried < moderateConf) ∧
  T.result.confidence = bestConfOf attempts ∧
  (T.result ∈ attempts ∨ T.result = emptyOCRResult)

/-! ### Non-maximum suppression (PlateDetector::applyNMS)

`applyNMS` hands the candidate boxes to `cv::dnn::NMSBoxes` (OpenCV library
code, outside this repository).  Modelled from the spec: sort the
candidates by confidence descending (stable, so ties keep insertion order)
and greedily keep a candidate exactly when its IoU with every already-kept
candidate is strictly below the threshold. -/

/-- An axis-aligned box `(x, y, width, height)`, the `cv::Rect` of a
detection, with rational coordinates. -/
structure Box where
  x : ℚ
  y : ℚ
  w : ℚ
  h : ℚ
deriving DecidableEq

/-- The `PlateDetection` struct: box, confidence and class id. -/
structure PlateDetection where
  bbox : Box
  confidence : ℚ
  classId : ℤ
deriving DecidableEq

/-- Area of the intersection of two boxes (0 when they do not overlap). -/
def interArea (a b : Box) : ℚ :=
  max 0 (min (a.x + a.w) (b.x + b.w) - max a.x b.x) *
  max 0 (min (a.y + a.h) (b.y + b.h) - max a.y b.y)

/-- Area of the union of two boxes. -/
def unionArea (a b : Box) : ℚ := a.w * a.h + b.w * b.h - interArea a b

/-- Intersection-over-Union of two boxes. -/
def iou (a b : Box) : ℚ := interArea a b / unionArea a b

/-- Confidence-descending comparison used to sort detection candidates. -/
def confGE (a b : PlateDetection) : Prop := b.confidence ≤ a.confidence

instance : DecidableRel confGE := fun a b =>
  inferInstanceAs (Decidable (b.confidence ≤ a.confidence))

instance : IsTotal PlateDetection confGE :=
  ⟨fun a b => le_total b.confidence a.confidence⟩

instance : IsTrans PlateDetection confGE :=
  ⟨fun _ _ _ h1 h2 => le_trans h2 h1⟩

/-- Greedy NMS scan: keep a candidate exactly when its IoU with every
already-kept candidate is strictly below the threshold. -/
def nmsLoop (thr : ℚ) : List PlateDetection → List PlateDetection → List PlateDetection
  | kept, [] => kept
  | kept, c :: rest =>
    if kept.all (fun k => decide (iou c.bbox k.bbox < thr)) then
      nmsLoop thr (kept ++ [c]) rest
    else nmsLoop thr kept rest

/-- `PlateDetector::applyNMS` modelled from the spec: canonical greedy NMS
over the candidates sorted by confidence descending (stable sort, so ties
are broken by insertion order). -/
def applyNMS (thr : ℚ) (dets : List PlateDetection) : List PlateDetection :=
  nmsLoop thr [] (List.insertionSort confGE dets)

/-! ### The bounded frame queue (LPRSystem::captureThread)

The capture loop body pushes each captured frame into `frame_queue_` after
first popping the oldest entry whenever the queue already holds
`max_queue_size_` frames.  The queue is modelled as a list, oldest frame
first. -/

/-- One insertion of the capture loop: drop the oldest entry when the queue
is at capacity, then append the new frame at the back. -/
def pushFrame {α : Type} (maxQueueSize : ℕ) (q : List α) (f : α) : List α :=
  (if maxQueueSize ≤ q.length then q.drop 1 else q) ++ [f]

/-! ## Helper lemmas -/

theorem lookup_mem_of_eq_some {β : Type} {l : List (String × β)} {k : String} {v : β}
    (h : l.lookup k = some v) : (k, v) ∈ l := by
  induction l with
  | nil => simp [List.lookup] at h
  | cons e t ih =>
    obtain ⟨a, b⟩ := e
    rw [List.lookup] at h
    cases hbeq : k == a with
    | true =>
      rw [hbeq] at h
      have hk : k = a := by simpa using hbeq
      have hv : b = v := by simpa using h
      subst hk
      subst hv
      exact List.mem_cons_self _ _
    | false =>
      rw [hbeq] at h
      exact List.mem_cons_of_mem _ (ih h)

/-- Suppress path of `checkCooldown`: a plate whose entry is younger than the
cooldown interval is rejected and the map is returned untouched. -/
theorem checkCooldown_suppress (cooldown : ℚ) (m : CooldownMap) (plate : String)
    (now ts : ℚ) (hts : m.lookup plate = some ts) (hlt : now - ts < cooldown) :
    checkCooldown cooldown m plate now = (false, m) := by
  simp [checkCooldown, hts, hlt]

/-- Accept path of `checkCooldown`: when the call accepts, the resulting map
records `now` for the plate (the fresh entry survives the pruning loop
because its age is zero). -/
theorem checkCooldown_accept_lookup (cooldown : ℚ) (hc : 0 ≤ cooldown)
    (m : CooldownMap) (plate : String) (now : ℚ)
    (hacc : (checkCooldown cooldown m plate now).1 = true) :
    (checkCooldown cooldown m plate now).2.lookup plate = some now := by
  unfold checkCooldown at *
  by_cases hs : (match m.lookup plate with
      | some ts => decide (now - ts < cooldown)
      | none => false) = true
  · simp only [hs, if_pos rfl] at hacc
    simp at hacc
  · rw [Bool.not_eq_true] at hs
    simp only [hs, Bool.false_eq_true, if_false]
    have hkeep : now - now ≤ 10 * cooldown := by nlinarith
    simp [List.filter_cons, List.lookup, hkeep, hc]

/-- Accept path of `checkCooldown`: the call accepts exactly when the plate
has no entry or its entry is at least the cooldown interval old. -/
theorem checkCooldown_accept_iff (cooldown : ℚ) (m : CooldownMap) (plate : String)
    (now : ℚ) :
    (checkCooldown cooldown m plate now).1 = true ↔
      (m.lookup plate = none ∨ ∃ ts, m.lookup plate = some ts ∧ cooldown ≤ now - ts) := by
  unfold checkCooldown
  cases hts : m.lookup plate with
  | none => simp
  | some ts =>
    by_cases hlt : now - ts < cooldown
    · simp [hlt, not_le.mpr hlt]
    · simp [hlt, not_lt.mp hlt]

/-! ## C1: the deduplication invariant of checkCooldown -/

/-- C1: for every plate P and timestamps t1 < t2, if `checkCooldown(P)` at
time t1 returned accept then P's last-seen entry is t1, and the call at t2
returns suppress without touching the map when `t2 - t1 < cooldown_seconds_`,
while it returns accept and records t2 as P's new last-seen time when
`t2 - t1 ≥ cooldown_seconds_`.  A call for a plate with no prior entry
always returns accept. -/
theorem checkCooldown_dedup_invariant (cooldown : ℚ) (hc : 0 ≤ cooldown)
    (m : CooldownMap) (plate : String) :
    (∀ now, m.lookup plate = none → (checkCooldown cooldown m plate now).1 = true) ∧
    (∀ t1 t2 m1, checkCooldown cooldown m plate t1 = (true, m1) → t1 < t2 →
      m1.lookup plate = some t1 ∧
      (t2 - t1 < cooldown → checkCooldown cooldown m1 plate t2 = (false, m1)) ∧
      (cooldown ≤ t2 - t1 →
        (checkCooldown cooldown m1 plate t2).1 = true ∧
        (checkCooldown cooldown m1 plate t2).2.lookup plate = some t2)) := by
  constructor
  · intro now hnone
    exact (checkCooldown_accept_iff cooldown m plate now).mpr (Or.inl hnone)
  · intro t1 t2 m1 hcall _
    have hfst : (checkCooldown cooldown m plate t1).1 = true := by rw [hcall]
    have hm1 : m1.lookup plate = some t1 := by
      have := checkCooldown_accept_lookup cooldown hc m plate t1 hfst
      rwa [hcall] at this
    refine ⟨hm1, fun hlt => checkCooldown_suppress cooldown m1 plate t2 t1 hm1
      (by linarith), fun hge => ?_⟩
    have hacc2 : (checkCooldown cooldown m1 plate t2).1 = true :=
      (checkCooldown_accept_iff cooldown m1 plate t2).mpr (Or.inr ⟨t1, hm1, hge⟩)
    exact ⟨hacc2, checkCooldown_accept_lookup cooldown hc m1 plate t2 hacc2⟩

/-- Witness for C1, following Scenario E of the spec: with cooldown 0.5,
accepting "ABC123" at t = 0 makes the call at t = 0.3 suppress and the call
at t = 0.6 accept and re-record. -/
theorem checkCooldown_dedup_invariant_witness :
    (∀ now, ([] : CooldownMap).lookup "ABC123" = none →
      (checkCooldown (1/2) [] "ABC123" now).1 = true) ∧
    (∀ t1 t2 m1, checkCooldown (1/2) [] "ABC123" t1 = (true, m1) → t1 < t2 →
      m1.lookup "ABC123" = some t1 ∧
      (t2 - t1 < 1/2 → checkCooldown (1/2) m1 "ABC123" t2 = (false, m1)) ∧
      (1/2 ≤ t2 - t1 →
        (checkCooldown (1/2) m1 "ABC123" t2).1 = true ∧
        (checkCooldown (1/2) m1 "ABC123" t2).2.lookup "ABC123" = some t2)) :=
  checkCooldown_dedup_invariant (1/2) (by norm_num) [] "ABC123"

/-! ## C10: a suppressed call leaves the whole cooldown map unchanged -/

/-- C10: when `checkCooldown(P)` returns suppress (the entry for P is younger
than the cooldown interval), the entire cooldown map is returned unchanged —
no entry of any plate is pruned, even entries older than ten times the
cooldown interval, because the suppress path returns before the pruning
loop. -/
theorem checkCooldown_suppress_no_prune (cooldown : ℚ) (m : CooldownMap)
    (plate : String) (now ts : ℚ) (hts : m.lookup plate = some ts)
    (hlt : now - ts < cooldown) :
    checkCooldown cooldown m plate now = (false, m) :=
  checkCooldown_suppress cooldown m plate now ts hts hlt

/-- Witness for C10: a suppressed call at t = 0.3 with cooldown 0.5 keeps the
entry of plate "OLD" even though its age 100.3 exceeds 10 × 0.5. -/
theorem checkCooldown_suppress_no_prune_witness :
    checkCooldown (1/2) [("ABC123", 0), ("OLD", -100)] "ABC123" (3/10)
      = (false, [("ABC123", 0), ("OLD", -100)]) :=
  checkCooldown_suppress_no_prune (1/2) [("ABC123", 0), ("OLD", -100)] "ABC123"
    (3/10) 0 (by simp [List.lookup]) (by norm_num)

/-! ## C3: pruning happens only on accepting calls -/

/-- Counterexample to C3: a suppressed call does not prune.  At t = 0.3 with
cooldown 0.5, the suppressed call for "ABC123" leaves the entry of "OLD" in
the map although its age 100.3 strictly exceeds 10 × 0.5 = 5. -/
theorem checkCooldown_prune_counterexample :
    (checkCooldown (1/2) [("ABC123", 0), ("OLD", -100)] "ABC123" (3/10)).2.lookup "OLD"
        = some (-100) ∧ 10 * (1/2 : ℚ) < (3/10 : ℚ) - (-100) := by
  constructor
  · have h : checkCooldown (1/2) [("ABC123", 0), ("OLD", -100)] "ABC123" (3/10)
        = (false, [("ABC123", 0), ("OLD", -100)]) :=
      checkCooldown_suppress (1/2) _ "ABC123" (3/10) 0 (by simp [List.lookup]) (by norm_num)
    rw [h]
    simp [List.lookup]
  · norm_num

/-- C3 amended: only calls that return accept run the pruning loop; after any
accepting `checkCooldown` call the map holds no entry older than ten times
the cooldown interval (a suppressed call leaves the map unchanged). -/
theorem checkCooldown_accept_prunes (cooldown : ℚ) (m : CooldownMap) (plate : String)
    (now : ℚ) (hacc : (checkCooldown cooldown m plate now).1 = true) :
    ∀ q ts, (checkCooldown cooldown m plate now).2.lookup q = some ts →
      now - ts ≤ 10 * cooldown := by
  intro q ts hq
  unfold checkCooldown at hacc hq
  by_cases hs : (match m.lookup plate with
      | some ts => decide (now - ts < cooldown)
      | none => false) = true
  · simp only [hs, if_pos rfl] at hacc
    simp at hacc
  · rw [Bool.not_eq_true] at hs
    simp only [hs, Bool.false_eq_true, if_false] at hq
    have hmem := lookup_mem_of_eq_some hq
    have := (List.mem_filter.mp hmem).2
    simpa using this

/-- Witness for C3 (amended): an accepting call at t = 0.3 prunes "OLD"
(age 100.3 > 5) and every surviving entry, here the freshly recorded
"ABC123", is at most 5 seconds old. -/
theorem checkCooldown_accept_prunes_witness :
    (3/10 : ℚ) - (3/10) ≤ 10 * (1/2) :=
  checkCooldown_accept_prunes (1/2) [("OLD", -100)] "ABC123" (3/10)
    (by simp [checkCooldown, List.lookup])
    "ABC123" (3/10)
    (by simp [checkCooldown, List.lookup])

/-! ## C9: the bounded frame queue -/

/-- Effect of the capture-loop insertions starting from an empty queue: the
queue is always the suffix of the inserted frames that fits the capacity. -/
theorem foldl_pushFrame_eq {α : Type} (K : ℕ) (hK : 1 ≤ K) (fs : List α) :
    List.foldl (pushFrame K) [] fs = fs.drop (fs.length - K) := by
  induction fs using List.reverseRecOn with
  | nil => simp
  | append_singleton l a ih =>
    rw [List.foldl_append, List.foldl_cons, List.foldl_nil, ih]
    unfold pushFrame
    simp only [List.length_append, List.length_cons, List.length_nil]
    by_cases hle : K ≤ l.length
    · rw [if_pos (by rw [List.length_drop]; omega)]
      rw [List.drop_drop]
      rw [List.drop_append_of_le_length (by omega)]
      have harith : l.length - K + 1 = l.length + 0 + 1 - K := by omega
      rw [harith]
    · rw [if_neg (by rw [List.length_drop]; omega)]
      have h1 : l.length - K = 0 := by omega
      have h2 : l.length + 0 + 1 - K = 0 := by omega
      rw [h1, h2]
      simp

/-- C9: the frame queue never holds more than `max_queue_size_` frames —
each insertion of the capture loop first evicts the oldest entry when the
queue is at capacity — and after K or more insertions the queue contains
exactly the K most recently inserted frames, in insertion order. -/
theorem frameQueue_bound {α : Type} (K : ℕ) (hK : 1 ≤ K) (fs : List α) :
    (List.foldl (pushFrame K) [] fs).length ≤ K ∧
    (K ≤ fs.length → List.foldl (pushFrame K) [] fs = fs.drop (fs.length - K)) := by
  rw [foldl_pushFrame_eq K hK]
  refine ⟨?_, fun _ => rfl⟩
  rw [List.length_drop]
  omega

/-- Witness for C9 with the constructor value `max_queue_size_ = 3`: after
five insertions the queue holds exactly the last three frames, in order. -/
theorem frameQueue_bound_witness :
    List.foldl (pushFrame 3) [] [0, 1, 2, 3, 4] = [2, 3, 4] := by
  have h := (frameQueue_bound 3 (by decide) [0, 1, 2, 3, 4]).2 (by decide)
  simpa using h

/-! ## C6: the OCR result cache is bounded -/

/-- C6: starting from a cache within its capacity of 100 entries, any
`recognize(image, use_cache = true)` call leaves the cache within capacity;
when the call is about to insert a new entry (miss, non-empty text) and the
cache already holds at least 100 entries, the oldest fifth (20 entries) is
evicted before the insertion. -/
theorem ocrCache_bound (cache : OCRCache) (hash : String) (engine : OCRResult)
    (hlen : cache.length ≤ maxCacheSize) :
    (recognizeWithCache cache hash engine true).2.length ≤ maxCacheSize ∧
    (cache.lookup hash = none → engine.text ≠ "" → maxCacheSize ≤ cache.length →
      (recognizeWithCache cache hash engine true).2
        = cache.drop (maxCacheSize / 5) ++ [(hash, engine)]) := by
  simp only [maxCacheSize] at hlen ⊢
  unfold recognizeWithCache
  simp only [maxCacheSize]
  cases hlk : cache.lookup hash with
  | some r => exact ⟨by simpa using hlen, by simp⟩
  | none =>
    by_cases htxt : engine.text = ""
    · refine ⟨by simpa [htxt] using hlen, fun _ hne _ => absurd htxt hne⟩
    · by_cases hfull : 100 ≤ cache.length
      · refine ⟨?_, fun _ _ _ => by simp [htxt, hfull]⟩
        simp only [htxt, hfull, if_true, if_false, if_neg, if_pos,
          List.length_append, List.length_drop, List.length_cons, List.length_nil]
        simp [htxt, hfull]
        omega
      · refine ⟨?_, fun _ _ h => absurd h hfull⟩
        simp [htxt, hfull]
        omega

/-- Witness for C6: a full cache of 100 entries receiving a fresh entry stays
within capacity, and the new cache is the old one minus its 20 oldest
entries plus the new entry at the back. -/
theorem ocrCache_bound_witness :
    (recognizeWithCache (List.replicate 100 ("k", emptyOCRResult)) "h"
        ⟨"ABC123", mkRat 8 10⟩ true).2.length ≤ maxCacheSize ∧
    ((List.replicate 100 ("k", emptyOCRResult)).lookup "h" = none →
      OCRResult.text ⟨"ABC123", mkRat 8 10⟩ ≠ "" →
      maxCacheSize ≤ (List.replicate 100 ("k", emptyOCRResult)).length →
      (recognizeWithCache (List.replicate 100 ("k", emptyOCRResult)) "h"
          ⟨"ABC123", mkRat 8 10⟩ true).2
        = (List.replicate 100 ("k", emptyOCRResult)).drop (maxCacheSize / 5)
            ++ [("h", ⟨"ABC123", mkRat 8 10⟩)]) :=
  ocrCache_bound (List.replicate 100 ("k", emptyOCRResult)) "h"
    ⟨"ABC123", mkRat 8 10⟩ (by simp [maxCacheSize])

/-! ## Helper lemmas for the plate validator -/

/-- A character accepted by either plate grammar is alphanumeric and is a
fixpoint of `std::toupper`. -/
theorem upper_digit_fix {c : Char} (h : (isUpperLetter c || isDigitChar c) = true) :
    isAlnumChar c = true ∧ asciiUpper c = c := by
  have h' : (65 ≤ c.toNat ∧ c.toNat ≤ 90) ∨ (48 ≤ c.toNat ∧ c.toNat ≤ 57) := by
    simpa [isUpperLetter, isDigitChar, Bool.or_eq_true, Bool.and_eq_true,
      decide_eq_true_eq] using h
  have hlow : isLowerLetter c = false := by
    by_contra hcon
    rw [Bool.not_eq_false] at hcon
    simp only [isLowerLetter, Bool.and_eq_true, decide_eq_true_eq] at hcon
    omega
  have halnum : isAlnumChar c = true := by
    rcases (by simpa using h : isUpperLetter c = true ∨ isDigitChar c = true) with hu | hd
    · simp [isAlnumChar, hu]
    · simp [isAlnumChar, hd]
  exact ⟨halnum, by simp [asciiUpper, hlow]⟩

/-- A list matching either plate grammar has exactly 6 characters, all of
them uppercase letters or digits. -/
theorem matches_chars {r : List Char}
    (h : (matchesStandard r || matchesDiplomatic r) = true) :
    r.length = 6 ∧ ∀ c ∈ r, (isUpperLetter c || isDigitChar c) = true := by
  match r with
  | [] => simp [matchesStandard, matchesDiplomatic] at h
  | [a] => simp [matchesStandard, matchesDiplomatic] at h
  | [a, b] => simp [matchesStandard, matchesDiplomatic] at h
  | [a, b, c] => simp [matchesStandard, matchesDiplomatic] at h
  | [a, b, c, d] => simp [matchesStandard, matchesDiplomatic] at h
  | [a, b, c, d, e] => simp [matchesStandard, matchesDiplomatic] at h
  | a :: b :: c :: d :: e :: f :: g :: t =>
    simp [matchesStandard, matchesDiplomatic] at h
  | [a, b, c, d, e, f] =>
    refine ⟨rfl, ?_⟩
    rcases (by simpa using h : matchesStandard [a, b, c, d, e, f] = true
        ∨ matchesDiplomatic [a, b, c, d, e, f] = true) with hs | hd
    · simp only [matchesStandard, Bool.and_eq_true] at hs
      obtain ⟨⟨⟨⟨⟨h1, h2⟩, h3⟩, h4⟩, h5⟩, h6⟩ := hs
      intro x hx
      simp only [List.mem_cons, List.not_mem_nil, or_false] at hx
      rcases hx with rfl | rfl | rfl | rfl | rfl | rfl <;>
        simp [h1, h2, h3, h4, h5, h6]
    · simp only [matchesDiplomatic, Bool.and_eq_true, beq_iff_eq] at hd
      obtain ⟨⟨⟨⟨⟨h1, h2⟩, h3⟩, h4⟩, h5⟩, h6⟩ := hd
      subst h1
      subst h2
      intro x hx
      simp only [List.mem_cons, List.not_mem_nil, or_false] at hx
      rcases hx with rfl | rfl | rfl | rfl | rfl | rfl <;>
        simp [h3, h4, h5, h6, isUpperLetter]

/-- Cleaning is the identity on text made of uppercase letters and digits. -/
theorem cleanTextL_fixpoint {cs : List Char}
    (h : ∀ c ∈ cs, (isUpperLetter c || isDigitChar c) = true) :
    cleanTextL cs = cs := by
  induction cs with
  | nil => rfl
  | cons c t ih =>
    have hc := upper_digit_fix (h c (List.mem_cons_self c t))
    have ht := ih fun x hx => h x (List.mem_cons_of_mem c hx)
    unfold cleanTextL at ht ⊢
    rw [List.filter_cons, if_pos hc.1, List.map_cons, hc.2, ht]

/-- A successful leftmost-window search returns a matching window. -/
theorem fwm_some_matches {p : List Char → Bool} :
    ∀ {cs m : List Char}, firstWindowMatch p cs = some m → p m = true := by
  intro cs
  induction cs with
  | nil => intro m h; simp [firstWindowMatch] at h
  | cons c t ih =>
    intro m h
    unfold firstWindowMatch at h
    cases hpc : p ((c :: t).take 6) with
    | true =>
      rw [hpc] at h
      simp only [if_true] at h
      have hm := Option.some.inj h
      subst hm
      exact hpc
    | false =>
      rw [hpc] at h
      simp only [Bool.false_eq_true, if_false] at h
      exact ih h

/-- The leftmost-window search finds the leftmost matching window: if window
`i` matches and no earlier window does, the search returns window `i`. -/
theorem fwm_eq_some_of_leftmost {p : List Char → Bool} (hp : p [] = false) :
    ∀ (cs : List Char) (i : ℕ), p ((cs.drop i).take 6) = true →
      (∀ j, j < i → p ((cs.drop j).take 6) = false) →
      firstWindowMatch p cs = some ((cs.drop i).take 6) := by
  intro cs
  induction cs with
  | nil =>
    intro i h1 _
    rw [List.drop_nil, List.take_nil, hp] at h1
    exact absurd h1 (by simp)
  | cons c t ih =>
    intro i h1 h2
    unfold firstWindowMatch
    cases i with
    | zero =>
      rw [List.drop_zero] at h1
      rw [h1]
      simp
    | succ j =>
      have h0 : p ((c :: t).take 6) = false := by
        have := h2 0 (Nat.succ_pos j)
        rwa [List.drop_zero] at this
      rw [h0]
      simp only [Bool.false_eq_true, if_false, List.drop_succ_cons]
      exact ih j (by rwa [List.drop_succ_cons] at h1)
        fun k hk => by
          have := h2 (k + 1) (by omega)
          rwa [List.drop_succ_cons] at this

/-- The leftmost-window search fails exactly when no window matches. -/
theorem fwm_eq_none_iff {p : List Char → Bool} (hp : p [] = false) :
    ∀ cs : List Char, firstWindowMatch p cs = none ↔
      ∀ i, p ((cs.drop i).take 6) = false := by
  intro cs
  induction cs with
  | nil => simp [firstWindowMatch, hp]
  | cons c t ih =>
    unfold firstWindowMatch
    cases hpc : p ((c :: t).take 6) with
    | true =>
      simp only [hpc, if_true]
      constructor
      · intro h; exact absurd h (by simp)
      · intro h
        have := h 0
        rw [List.drop_zero, hpc] at this
        exact absurd this (by simp)
    | false =>
      simp only [hpc, Bool.false_eq_true, if_false]
      rw [ih]
      constructor
      · intro h i
        cases i with
        | zero => rwa [List.drop_zero]
        | succ j => rw [List.drop_succ_cons]; exact h j
      · intro h j
        have := h (j + 1)
        rwa [List.drop_succ_cons] at this

/-- Every non-empty output of `normalizeL` matches one of the two plate
grammars. -/
theorem normalizeL_valid (cs : List Char) :
    normalizeL cs = [] ∨
      (matchesStandard (normalizeL cs) || matchesDiplomatic (normalizeL cs)) = true := by
  unfold normalizeL
  by_cases h1 : (cleanTextL cs).length < 6
  · rw [if_pos h1]; left; rfl
  · rw [if_neg h1]
    by_cases h2 : 6 < (cleanTextL cs).length
    · rw [if_pos h2]
      cases hstd : firstWindowMatch matchesStandard (cleanTextL cs) with
      | some m => right; simp [fwm_some_matches hstd]
      | none =>
        cases hdip : firstWindowMatch matchesDiplomatic (cleanTextL cs) with
        | some m => right; simp [fwm_some_matches hdip]
        | none =>
          by_cases h3 : (matchesStandard ((cleanTextL cs).take 6)
              || matchesDiplomatic ((cleanTextL cs).take 6)) = true
          · rw [if_pos h3]; right; exact h3
          · rw [if_neg h3]; left; rfl
    · rw [if_neg h2]
      by_cases h3 : (matchesStandard (cleanTextL cs)
          || matchesDiplomatic (cleanTextL cs)) = true
      · rw [if_pos h3]; right; exact h3
      · rw [if_neg h3]; left; rfl

/-- `normalizeL` is the identity on lists matching one of the two plate
grammars. -/
theorem normalizeL_of_valid {r : List Char}
    (h : (matchesStandard r || matchesDiplomatic r) = true) : normalizeL r = r := by
  obtain ⟨hlen, hchars⟩ := matches_chars h
  have hfix : cleanTextL r = r := cleanTextL_fixpoint hchars
  unfold normalizeL
  rw [hfix, hlen, if_neg (by omega), if_neg (by omega), if_pos h]

/-- `normalizeL` is idempotent. -/
theorem normalizeL_idem (cs : List Char) :
    normalizeL (normalizeL cs) = normalizeL cs := by
  rcases normalizeL_valid cs with h | h
  · rw [h]; rfl
  · exact normalizeL_of_valid h

/-! ## C5: normalization is idempotent -/

/-- C5: `normalizeColombianPlate` is idempotent, and every non-empty result
is exactly 6 characters long, matches the standard or diplomatic grammar,
and re-normalizes to itself. -/
theorem normalize_idempotent (s : String) :
    normalizeColombianPlate (normalizeColombianPlate s) = normalizeColombianPlate s ∧
    (normalizeColombianPlate s ≠ "" →
      (normalizeColombianPlate s).data.length = 6 ∧
      isValidColombianFormat (normalizeColombianPlate s) = true) := by
  constructor
  · exact congrArg String.mk (normalizeL_idem s.data)
  · intro hne
    rcases normalizeL_valid s.data with h | h
    · exact absurd (congrArg String.mk h) hne
    · obtain ⟨hlen, _⟩ := matches_chars h
      refine ⟨hlen, ?_⟩
      unfold isValidColombianFormat
      have hd : (normalizeColombianPlate s).data = normalizeL s.data := rfl
      rw [hd, hlen]
      simpa using h

/-- Witness for C5 at Scenario A of the spec: `"A B C - 1 2 3"` normalizes
to `"ABC123"`, which is 6 characters, valid, and re-normalizes to itself. -/
theorem normalize_idempotent_witness :
    normalizeColombianPlate (normalizeColombianPlate "A B C - 1 2 3")
      = normalizeColombianPlate "A B C - 1 2 3" ∧
    ((normalizeColombianPlate "A B C - 1 2 3").data.length = 6 ∧
      isValidColombianFormat (normalizeColombianPlate "A B C - 1 2 3") = true) :=
  ⟨(normalize_idempotent "A B C - 1 2 3").1,
   (normalize_idempotent "A B C - 1 2 3").2 (by decide)⟩

/-! ## C2: Scenario B of the spec -/

/-- Counterexample to C2: the claim says the raw OCR text `"XCD12345Y"`
normalizes to the diplomatic plate `"CD1234"`, but the code searches for the
standard pattern first, `"XCD123"` (3 letters then 3 digits at position 0)
matches it, and the returned plate is `"XCD123"`, not `"CD1234"`. -/
theorem normalize_scenarioB_counterexample :
    normalizeColombianPlate "XCD12345Y" = "XCD123" ∧
    normalizeColombianPlate "XCD12345Y" ≠ "CD1234" := by
  constructor
  · decide
  · decide

/-- C2 amended: cleaning `"XCD12345Y"` leaves `"XCD12345Y"` (length 9); the
standard-grammar search runs first and finds `"XCD123"`, so the normalized
plate is `"XCD123"` (standard format) and the diplomatic search is never
consulted. -/
theorem normalize_scenarioB :
    cleanText "XCD12345Y" = "XCD12345Y" ∧
    (cleanTextL "XCD12345Y".data).length = 9 ∧
    firstWindowMatch matchesStandard (cleanTextL "XCD12345Y".data)
      = some "XCD123".data ∧
    matchesStandard "XCD123".data = true ∧
    normalizeColombianPlate "XCD12345Y" = "XCD123" := by
  refine ⟨by decide, by decide, by decide, by decide, by decide⟩

/-! ## C4: the case analysis of normalizeColombianPlate -/

/-- C4: `normalizeColombianPlate` strips its input to uppercase
alphanumerics and then: rejects cleaned text shorter than 6; accepts cleaned
text of length exactly 6 iff it matches the standard or the diplomatic
grammar; and for cleaned text longer than 6 returns the leftmost window
matching the standard grammar if one exists, else the leftmost window
matching the diplomatic grammar if one exists, else the first 6 characters
provided they validate against one of the two grammars, else rejects. -/
theorem normalize_case_analysis (s : String) :
    ((cleanTextL s.data).length < 6 → normalizeColombianPlate s = "") ∧
    ((cleanTextL s.data).length = 6 →
      normalizeColombianPlate s =
        if (matchesStandard (cleanTextL s.data)
            || matchesDiplomatic (cleanTextL s.data)) = true
        then cleanText s else "") ∧
    (6 < (cleanTextL s.data).length →
      (∀ i, matchesStandard (((cleanTextL s.data).drop i).take 6) = true →
        (∀ j, j < i → matchesStandard (((cleanTextL s.data).drop j).take 6) = false) →
        normalizeColombianPlate s = ⟨((cleanTextL s.data).drop i).take 6⟩) ∧
      ((∀ i, matchesStandard (((cleanTextL s.data).drop i).take 6) = false) →
        ∀ i, matchesDiplomatic (((cleanTextL s.data).drop i).take 6) = true →
          (∀ j, j < i → matchesDiplomatic (((cleanTextL s.data).drop j).take 6) = false) →
          normalizeColombianPlate s = ⟨((cleanTextL s.data).drop i).take 6⟩) ∧
      ((∀ i, matchesStandard (((cleanTextL s.data).drop i).take 6) = false) →
        (∀ i, matchesDiplomatic (((cleanTextL s.data).drop i).take 6) = false) →
        normalizeColombianPlate s =
          if (matchesStandard ((cleanTextL s.data).take 6)
              || matchesDiplomatic ((cleanTextL s.data).take 6)) = true
          then ⟨(cleanTextL s.data).take 6⟩ else "")) := by
  have hstd0 : matchesStandard [] = false := rfl
  have hdip0 : matchesDiplomatic [] = false := rfl
  refine ⟨fun hlt => ?_, fun heq => ?_, fun hgt => ⟨?_, ?_, ?_⟩⟩
  · show (⟨normalizeL s.data⟩ : String) = ""
    unfold normalizeL
    rw [if_pos hlt]
  · show (⟨normalizeL s.data⟩ : String) = _
    unfold normalizeL
    rw [if_neg (by omega), if_neg (by omega)]
    by_cases h3 : (matchesStandard (cleanTextL s.data)
        || matchesDiplomatic (cleanTextL s.data)) = true
    · rw [if_pos h3, if_pos h3]; rfl
    · rw [if_neg h3, if_neg h3]
  · intro i h1 h2
    show (⟨normalizeL s.data⟩ : String) = _
    unfold normalizeL
    rw [if_neg (by omega), if_pos hgt,
      fwm_eq_some_of_leftmost hstd0 (cleanTextL s.data) i h1 h2]
  · intro hnone i h1 h2
    show (⟨normalizeL s.data⟩ : String) = _
    unfold normalizeL
    rw [if_neg (by omega), if_pos hgt,
      (fwm_eq_none_iff hstd0 (cleanTextL s.data)).mpr hnone,
      fwm_eq_some_of_leftmost hdip0 (cleanTextL s.data) i h1 h2]
  · intro hs hd
    show (⟨normalizeL s.data⟩ : String) = _
    unfold normalizeL
    rw [if_neg (by omega), if_pos hgt,
      (fwm_eq_none_iff hstd0 (cleanTextL s.data)).mpr hs,
      (fwm_eq_none_iff hdip0 (cleanTextL s.data)).mpr hd]
    by_cases h3 : (matchesStandard ((cleanTextL s.data).take 6)
        || matchesDiplomatic ((cleanTextL s.data).take 6)) = true
    · rw [if_pos h3, if_pos h3]
    · rw [if_neg h3, if_neg h3]

/-- Witness for C4: on `"ABC1234"` (cleaned length 7) the leftmost standard
window is at position 0, so normalization returns `"ABC123"`; on `"AB12"`
(cleaned length 4) normalization rejects. -/
theorem normalize_case_analysis_witness :
    normalizeColombianPlate "ABC1234" = "ABC123" ∧
    normalizeColombianPlate "AB12" = "" := by
  constructor
  · have h := ((normalize_case_analysis "ABC1234").2.2 (by decide)).1 0 (by decide)
      (fun j hj => absurd hj (Nat.not_lt_zero j))
    simpa using h
  · exact (normalize_case_analysis "AB12").1 (by decide)

/-! ## Helper lemmas for the multi-attempt OCR loop -/

theorem ite_lt_max (a b : ℚ) : (if a < b then b else a) = max a b := by
  rcases le_or_lt b a with h | h
  · rw [if_neg (not_lt.mpr h), max_eq_left h]
  · rw [if_pos h, max_eq_right h.le]

theorem bestConfOf_nil : bestConfOf [] = 0 := rfl

theorem bestConfOf_cons (r : OCRResult) (t : List OCRResult) :
    bestConfOf (r :: t) = max r.confidence (bestConfOf t) := rfl

theorem bestConfOf_nonneg (l : List OCRResult) : 0 ≤ bestConfOf l := by
  induction l with
  | nil => exact le_refl 0
  | cons r t ih =>
    rw [bestConfOf_cons]
    exact le_trans ih (le_max_right _ _)

theorem bestConfOf_append (l1 l2 : List OCRResult) :
    bestConfOf (l1 ++ l2) = max (bestConfOf l1) (bestConfOf l2) := by
  induction l1 with
  | nil =>
    rw [List.nil_append, bestConfOf_nil, max_eq_right (bestConfOf_nonneg l2)]
  | cons r t ih =>
    rw [List.cons_append, bestConfOf_cons, ih, bestConfOf_cons, max_assoc]

/-- One-step equation of the multi-attempt loop, with the running best
confidence written as a `max`. -/
theorem multiLoop_cons (r : OCRResult) (rest : List OCRResult) (best : OCRResult)
    (bc : ℚ) :
    multiLoop (r :: rest) best bc =
      if veryHighConf < max bc r.confidence then
        (if bc < r.confidence then r else best, max bc r.confidence, [r])
      else
        ((multiLoop rest (if bc < r.confidence then r else best)
            (max bc r.confidence)).1,
         (multiLoop rest (if bc < r.confidence then r else best)
            (max bc r.confidence)).2.1,
         r :: (multiLoop rest (if bc < r.confidence then r else best)
            (max bc r.confidence)).2.2) := by
  simp only [multiLoop, ite_lt_max]

/-- Invariant of `multiLoop`: starting from a best result whose confidence
is the running best and is nonnegative, the loop returns a best result
achieving the running maximum, processes a prefix of the variants, stops
early only after exceeding the very-high bar, and never continues past a
state already above the bar. -/
theorem multiLoop_spec :
    ∀ (vs : List OCRResult) (best : OCRResult) (bc : ℚ),
      best.confidence = bc → 0 ≤ bc → (∀ x ∈ vs, 0 ≤ x.confidence) →
      (multiLoop vs best bc).1.confidence = (multiLoop vs best bc).2.1 ∧
      (multiLoop vs best bc).2.1 = max bc (bestConfOf (multiLoop vs best bc).2.2) ∧
      ((multiLoop vs best bc).1 = best ∨
        (multiLoop vs best bc).1 ∈ (multiLoop vs best bc).2.2) ∧
      (∃ n, (multiLoop vs best bc).2.2 = vs.take n) ∧
      ((multiLoop vs best bc).2.2 ≠ vs → veryHighConf < (multiLoop vs best bc).2.1) ∧
      (bc ≤ veryHighConf → ∀ k, k < (multiLoop vs best bc).2.2.length →
        max bc (bestConfOf ((multiLoop vs best bc).2.2.take k)) ≤ veryHighConf) := by
  intro vs
  induction vs with
  | nil =>
    intro best bc hbc h0 _
    refine ⟨hbc, ?_, Or.inl rfl, ⟨0, rfl⟩, fun h => absurd rfl h, ?_⟩
    · rw [show (multiLoop [] best bc).2.2 = [] from rfl, bestConfOf_nil,
        max_eq_left h0]
      rfl
    · intro _ k hk
      simp [multiLoop] at hk
  | cons r rest ih =>
    intro best bc hbc h0 hv
    have hr : 0 ≤ r.confidence := hv r (List.mem_cons_self r rest)
    have hrest : ∀ x ∈ rest, 0 ≤ x.confidence :=
      fun x hx => hv x (List.mem_cons_of_mem r hx)
    have hbc' : (if bc < r.confidence then r else best).confidence
        = max bc r.confidence := by
      by_cases hcmp : bc < r.confidence
      · rw [if_pos hcmp, max_eq_right hcmp.le]
      · rw [if_neg hcmp, hbc, max_eq_left (not_lt.mp hcmp)]
    have h0' : 0 ≤ max bc r.confidence := le_trans h0 (le_max_left _ _)
    rw [multiLoop_cons]
    by_cases hhigh : veryHighConf < max bc r.confidence
    · rw [if_pos hhigh]
      refine ⟨hbc', ?_, ?_, ⟨1, rfl⟩, fun _ => hhigh, ?_⟩
      · rw [bestConfOf_cons, bestConfOf_nil, max_eq_left hr]
      · by_cases hcmp : bc < r.confidence
        · right; rw [if_pos hcmp]; exact List.mem_singleton_self r
        · left; rw [if_neg hcmp]
      · intro hle k hk
        simp only [List.length_singleton] at hk
        have hk0 : k = 0 := by omega
        subst hk0
        rw [List.take_zero, bestConfOf_nil, max_eq_left h0]
        exact hle
    · rw [if_neg hhigh]
      have hle : max bc r.confidence ≤ veryHighConf := not_lt.mp hhigh
      obtain ⟨S1, S2, S3, ⟨n, S4⟩, S5, S6⟩ :=
        ih (if bc < r.confidence then r else best) (max bc r.confidence) hbc' h0' hrest
      refine ⟨S1, ?_, ?_, ⟨n + 1, ?_⟩, ?_, ?_⟩
      · rw [S2, bestConfOf_cons, max_assoc]
      · rcases S3 with heq | hmem
        · by_cases hcmp : bc < r.confidence
          · right
            rw [heq, if_pos hcmp]
            exact List.mem_cons_self r _
          · left
            rw [heq, if_neg hcmp]
        · right
          exact List.mem_cons_of_mem r hmem
      · rw [List.take_succ_cons, S4]
      · intro hne
        have hne' : (multiLoop rest (if bc < r.confidence then r else best)
            (max bc r.confidence)).2.2 ≠ rest := by
          intro hc
          exact hne (by rw [hc])
        exact S5 hne'
      · intro _ k hk
        simp only [List.length_cons] at hk
        cases k with
        | zero =>
          rw [List.take_zero, bestConfOf_nil, max_eq_left h0]
          exact le_trans (le_max_left bc r.confidence) hle
        | succ j =>
          have hj : j < (multiLoop rest (if bc < r.confidence then r else best)
              (max bc r.confidence)).2.2.length := by omega
          have := S6 hle j hj
          rw [List.take_succ_cons, bestConfOf_cons, ← max_assoc]
          exact this

/-- Unfolding of `recognizeMultipleAttempts` in terms of the loop result. -/
theorem recognizeMultipleAttempts_eq (variants : List OCRResult) (fallback : OCRResult) :
    recognizeMultipleAttempts variants fallback =
      if (multiLoop variants emptyOCRResult 0).2.1 < moderateConf then
        ⟨if (multiLoop variants emptyOCRResult 0).2.1 < fallback.confidence then fallback
          else (multiLoop variants emptyOCRResult 0).1,
         (multiLoop variants emptyOCRResult 0).2.2, true⟩
      else ⟨(multiLoop variants emptyOCRResult 0).1,
            (multiLoop variants emptyOCRResult 0).2.2, false⟩ := rfl

/-! ## C7: multi-attempt OCR with early exit and fallback -/

/-- C7: for OCR engine outputs with nonnegative confidences,
`recognizeMultipleAttempts` runs OCR over the binarized variants in order,
stops trying further variants as soon as the best confidence exceeds 0.9,
additionally runs the single-attempt path exactly when the best confidence
after the loop is below 0.5, and returns a result carrying the highest
confidence among the attempts actually performed. -/
theorem recognizeMultipleAttempts_spec (variants : List OCRResult)
    (fallback : OCRResult) (hv : ∀ x ∈ variants, 0 ≤ x.confidence)
    (hf : 0 ≤ fallback.confidence) : MultiAttemptSpec variants fallback := by
  obtain ⟨S1, S2, S3, hex, S5, S6⟩ :=
    multiLoop_spec variants emptyOCRResult 0 rfl le_rfl hv
  have hbc : (multiLoop variants emptyOCRResult 0).2.1
      = bestConfOf (multiLoop variants emptyOCRResult 0).2.2 := by
    rw [S2, max_eq_right (bestConfOf_nonneg _)]
  have hvh0 : (0 : ℚ) ≤ veryHighConf := by decide
  unfold MultiAttemptSpec
  rw [recognizeMultipleAttempts_eq]
  by_cases hm : (multiLoop variants emptyOCRResult 0).2.1 < moderateConf
  · rw [if_pos hm]
    dsimp only
    simp only [eq_self_iff_true, if_true]
    refine ⟨hex, ?_, ?_, ?_, ?_, ?_⟩
    · intro hne
      have := S5 hne
      rwa [hbc] at this
    · intro k hk
      have := S6 hvh0 k hk
      rwa [max_eq_right (bestConfOf_nonneg _)] at this
    · simp only [true_iff]
      rw [← hbc]
      exact hm
    · rw [bestConfOf_append, bestConfOf_cons, bestConfOf_nil,
        max_eq_left hf, ← hbc]
      by_cases hfb : (multiLoop variants emptyOCRResult 0).2.1 < fallback.confidence
      · rw [if_pos hfb, max_eq_right hfb.le]
      · rw [if_neg hfb, max_eq_left (not_lt.mp hfb), S1]
    · by_cases hfb : (multiLoop variants emptyOCRResult 0).2.1 < fallback.confidence
      · rw [if_pos hfb]
        left
        exact List.mem_append_right _ (List.mem_singleton_self fallback)
      · rw [if_neg hfb]
        rcases S3 with heq | hmem
        · right; exact heq
        · left; exact List.mem_append_left _ hmem
  · rw [if_neg hm]
    dsimp only
    simp only [Bool.false_eq_true, if_false]
    refine ⟨hex, ?_, ?_, ?_, ?_, ?_⟩
    · intro hne
      have := S5 hne
      rwa [hbc] at this
    · intro k hk
      have := S6 hvh0 k hk
      rwa [max_eq_right (bestConfOf_nonneg _)] at this
    · simp only [false_iff]
      rw [← hbc]
      exact hm
    · rw [List.append_nil, S1, hbc]
    · rcases S3 with heq | hmem
      · right; exact heq
      · left
        rw [List.append_nil]
        exact hmem

/-- Witness for C7: with variant confidences 0.3 then 0.95 then 0.99, the
loop stops after the second variant (0.95 > 0.9), the fallback does not run
(0.95 ≥ 0.5), and the returned result is the 0.95 attempt. -/
theorem recognizeMultipleAttempts_spec_witness :
    MultiAttemptSpec
      [⟨"AB", mkRat 3 10⟩, ⟨"ABC123", mkRat 95 100⟩, ⟨"ZZZ", mkRat 99 100⟩]
      ⟨"F", mkRat 1 10⟩ :=
  recognizeMultipleAttempts_spec
    [⟨"AB", mkRat 3 10⟩, ⟨"ABC123", mkRat 95 100⟩, ⟨"ZZZ", mkRat 99 100⟩]
    ⟨"F", mkRat 1 10⟩ (by decide) (by decide)

/-! ## Helper lemmas for non-maximum suppression -/

theorem interArea_comm (a b : Box) : interArea a b = interArea b a := by
  unfold interArea
  rw [min_comm (a.x + a.w) (b.x + b.w), max_comm a.x b.x,
    min_comm (a.y + a.h) (b.y + b.h), max_comm a.y b.y]

theorem unionArea_comm (a b : Box) : unionArea a b = unionArea b a := by
  unfold unionArea
  rw [interArea_comm, add_comm (a.w * a.h)]

theorem iou_comm (a b : Box) : iou a b = iou b a := by
  unfold iou
  rw [interArea_comm, unionArea_comm]

/-- Invariant of the greedy NMS scan: starting from a pairwise-compatible
kept list whose members dominate (in confidence) everything still to be
scanned, the scan extends the kept list, keeps it pairwise below the
threshold, keeps only scanned candidates, and gives every dropped candidate
a kept witness of no smaller confidence overlapping it at or above the
threshold. -/
theorem nmsLoop_spec (thr : ℚ) :
    ∀ (rest kept : List PlateDetection),
      List.Pairwise (fun a b => iou a.bbox b.bbox < thr) kept →
      (∀ k ∈ kept, ∀ c ∈ rest, c.confidence ≤ k.confidence) →
      List.Sorted confGE rest →
      (∃ suffix, nmsLoop thr kept rest = kept ++ suffix) ∧
      List.Pairwise (fun a b => iou a.bbox b.bbox < thr) (nmsLoop thr kept rest) ∧
      (∀ x ∈ nmsLoop thr kept rest, x ∈ kept ∨ x ∈ rest) ∧
      (∀ d ∈ rest, d ∉ nmsLoop thr kept rest →
        ∃ k ∈ nmsLoop thr kept rest,
          thr ≤ iou d.bbox k.bbox ∧ d.confidence ≤ k.confidence) := by
  intro rest
  induction rest with
  | nil =>
    intro kept hpw _ _
    refine ⟨⟨[], (List.append_nil kept).symm⟩, hpw, fun x hx => Or.inl hx, ?_⟩
    intro d hd
    exact absurd hd (List.not_mem_nil d)
  | cons c rest ih =>
    intro kept hpw hconf hsort
    rw [List.sorted_cons] at hsort
    obtain ⟨head, hsort'⟩ := hsort
    by_cases hall : (kept.all fun k => decide (iou c.bbox k.bbox < thr)) = true
    · have hstep : nmsLoop thr kept (c :: rest) = nmsLoop thr (kept ++ [c]) rest := by
        simp only [nmsLoop, hall, if_true]
      have hcross : ∀ a ∈ kept, iou a.bbox c.bbox < thr := by
        intro a ha
        have := List.all_eq_true.mp hall a ha
        rw [decide_eq_true_eq] at this
        rwa [iou_comm]
      have hpw' : List.Pairwise (fun a b => iou a.bbox b.bbox < thr) (kept ++ [c]) := by
        rw [List.pairwise_append]
        exact ⟨hpw, List.pairwise_singleton _ c,
          fun a ha b hb => (List.mem_singleton.mp hb) ▸ hcross a ha⟩
      have hconf' : ∀ k ∈ kept ++ [c], ∀ x ∈ rest, x.confidence ≤ k.confidence := by
        intro k hk x hx
        rcases List.mem_append.mp hk with hk | hk
        · exact hconf k hk x (List.mem_cons_of_mem c hx)
        · rw [List.mem_singleton.mp hk]
          exact head x hx
      obtain ⟨⟨suf, hsuf⟩, hpw2, hsub, hdrop⟩ := ih (kept ++ [c]) hpw' hconf' hsort'
      rw [hstep]
      refine ⟨⟨[c] ++ suf, by rw [hsuf, List.append_assoc]⟩, hpw2, ?_, ?_⟩
      · intro x hx
        rcases hsub x hx with hx' | hx'
        · rcases List.mem_append.mp hx' with h | h
          · exact Or.inl h
          · exact Or.inr (List.mem_singleton.mp h ▸ List.mem_cons_self c rest)
        · exact Or.inr (List.mem_cons_of_mem c hx')
      · intro d hd hnot
        rcases List.mem_cons.mp hd with rfl | hd'
        · exact absurd (hsuf ▸ List.mem_append_left suf
            (List.mem_append_right kept (List.mem_singleton_self d))) hnot
        · exact hdrop d hd' hnot
    · have hstep : nmsLoop thr kept (c :: rest) = nmsLoop thr kept rest := by
        simp only [nmsLoop, hall, if_false, Bool.false_eq_true]
      have hviol : ∃ k ∈ kept, thr ≤ iou c.bbox k.bbox := by
        rcases List.all_eq_false.mp (Bool.not_eq_true _ |>.mp hall)
          with ⟨k, hk, hdec⟩
        refine ⟨k, hk, ?_⟩
        rw [decide_eq_true_eq] at hdec
        exact not_lt.mp hdec
      have hconf' : ∀ k ∈ kept, ∀ x ∈ rest, x.confidence ≤ k.confidence :=
        fun k hk x hx => hconf k hk x (List.mem_cons_of_mem c hx)
      obtain ⟨⟨suf, hsuf⟩, hpw2, hsub, hdrop⟩ := ih kept hpw hconf' hsort'
      rw [hstep]
      refine ⟨⟨suf, hsuf⟩, hpw2, ?_, ?_⟩
      · intro x hx
        rcases hsub x hx with hx' | hx'
        · exact Or.inl hx'
        · exact Or.inr (List.mem_cons_of_mem c hx')
      · intro d hd hnot
        rcases List.mem_cons.mp hd with rfl | hd'
        · obtain ⟨k, hk, hiou⟩ := hviol
          exact ⟨k, hsuf ▸ List.mem_append_left suf hk, hiou,
            hconf k hk d (List.mem_cons_self d rest)⟩
        · exact hdrop d hd' hnot

/-! ## C8: applyNMS is canonical greedy NMS -/

/-- C8: `applyNMS` (modelled from the spec as canonical greedy NMS, since
the C++ body delegates to OpenCV's `cv::dnn::NMSBoxes`) keeps only input
candidates, every pair of kept candidates has IoU strictly below the
threshold, and every discarded candidate overlaps (IoU at or above the
threshold) some kept candidate of equal or higher confidence. -/
theorem applyNMS_spec (thr : ℚ) (dets : List PlateDetection) :
    (∀ x ∈ applyNMS thr dets, x ∈ dets) ∧
    List.Pairwise (fun a b => iou a.bbox b.bbox < thr) (applyNMS thr dets) ∧
    (∀ d ∈ dets, d ∉ applyNMS thr dets →
      ∃ k ∈ applyNMS thr dets,
        thr ≤ iou d.bbox k.bbox ∧ d.confidence ≤ k.confidence) := by
  have hperm := List.perm_insertionSort confGE dets
  have hsorted := List.sorted_insertionSort confGE dets
  obtain ⟨_, hpw, hsub, hdrop⟩ :=
    nmsLoop_spec thr (List.insertionSort confGE dets) []
      (List.Pairwise.nil) (by intro k hk; exact absurd hk (List.not_mem_nil k))
      hsorted
  refine ⟨?_, hpw, ?_⟩
  · intro x hx
    rcases hsub x hx with hx' | hx'
    · exact absurd hx' (List.not_mem_nil x)
    · exact hperm.mem_iff.mp hx'
  · intro d hd hnot
    exact hdrop d (hperm.mem_iff.mpr hd) hnot

/-- Witness for C8, Scenario D of the spec: two boxes with IoU 0.7 and
confidences 0.8 and 0.6 at threshold 0.5: NMS keeps only the 0.8 box, and
the discarded 0.6 box overlaps it at IoU 0.7 ≥ 0.5. -/
theorem applyNMS_spec_witness :
    applyNMS (mkRat 1 2)
        [⟨⟨0, 0, 10, 10⟩, mkRat 8 10, 0⟩, ⟨⟨0, 0, 10, 7⟩, mkRat 6 10, 0⟩]
      = [⟨⟨0, 0, 10, 10⟩, mkRat 8 10, 0⟩] ∧
    ∃ k ∈ applyNMS (mkRat 1 2)
        [⟨⟨0, 0, 10, 10⟩, mkRat 8 10, 0⟩, ⟨⟨0, 0, 10, 7⟩, mkRat 6 10, 0⟩],
      mkRat 1 2 ≤ iou (⟨0, 0, 10, 7⟩ : Box) k.bbox ∧
      (mkRat 6 10) ≤ k.confidence := by
  have hnms : applyNMS (mkRat 1 2)
      [⟨⟨0, 0, 10, 10⟩, mkRat 8 10, 0⟩, ⟨⟨0, 0, 10, 7⟩, mkRat 6 10, 0⟩]
      = [⟨⟨0, 0, 10, 10⟩, mkRat 8 10, 0⟩] := by
    simp [applyNMS, List.insertionSort, nmsLoop, iou, interArea, unionArea]
    norm_num
  refine ⟨hnms, ?_⟩
  exact (applyNMS_spec (mkRat 1 2)
      [⟨⟨0, 0, 10, 10⟩, mkRat 8 10, 0⟩, ⟨⟨0, 0, 10, 7⟩, mkRat 6 10, 0⟩]).2.2
    ⟨⟨0, 0, 10, 7⟩, mkRat 6 10, 0⟩ (by simp)
    (by rw [hnms]; decide)

end JetsonPRS
